import Mathlib

/-!
Verification of the mask-head training-loss code in
`detectron2/modeling/roi_heads/mask_head.py` (jodumagpi/detectron2 fork).

The development shallowly embeds the algorithmic core of that file:

* `quad` — the overlap-count-to-weight transform (source lines 423-428),
  over the reals, with `Real.sqrt` standing for `torch.sqrt`;
* `bb_intersection_over_union` — IoU of two axis-aligned boxes
  (source lines 391-413), over exact rationals;
* the per-image penalty builders of `mask_rcnn_loss` — boundary weights
  (lines 150-165, 216-217), duplicate-box / roi weights (lines 167-187),
  overlap weights (lines 189-212, 227);
* the loss assembly of `BaseMaskRCNNHead.mask_rcnn_loss` (lines 214-297),
  returning `Option ℝ`, where `none` models a raised runtime error
  (`torch.stack` / `torch.cat` on an empty list, shape-mismatch errors);
* `mask_rcnn_inference` (lines 30-68).

External collaborators that are not part of this repository (the
`crop_and_resize` rasterizer of `detectron2.structures`, and the OpenCV
morphology routines `cv.findContours`+`cv.drawContours`, `cv.dilate`,
`cv.erode`) are abstracted as an `Externals` bundle of unspecified
functions on `S × S` grids; everything written in the source file itself
is embedded concretely.  Tensors are lists of `Fin S → Fin S → ℝ` grids
(one entry per instance row), machine floats are modelled as exact reals,
and box coordinates as exact rationals.
-/

/-! ## The quadratic overlap-weight transform (source lines 423-428) -/

/-- The radicand that `quad` takes a square root of: the source first
reassigns `c = -2 * c` and then forms `1 - 4 * c`, so the radicand of the
square root is `1 - 4 * (-2 * c)`. -/
def quadRadicand (c : ℝ) : ℝ := 1 - 4 * (-2 * c)

/-- Source `quad`: `c = -2*c; x1 = (1+sqrt(1-4c))/2; x2 = (1-sqrt(1-4c))/2;
return max(x1, x2)` (applied elementwise by torch; here scalar). -/
noncomputable def quad (c : ℝ) : ℝ :=
  max ((1 + Real.sqrt (quadRadicand c)) / 2) ((1 - Real.sqrt (quadRadicand c)) / 2)

/-! ## IoU of axis-aligned boxes (source lines 391-413) -/

/-- An axis-aligned box `(x1, y1, x2, y2)`, coordinates as exact rationals. -/
structure BBox where
  x1 : ℚ
  y1 : ℚ
  x2 : ℚ
  y2 : ℚ
deriving DecidableEq

/-- Source lines 393-399: `interArea = abs(max((xB - xA, 0)) * max((yB - yA), 0))`
with `xA = max(boxA[0], boxB[0])`, `xB = min(boxA[2], boxB[2])`, etc. -/
def interArea (A B : BBox) : ℚ :=
  |max (min A.x2 B.x2 - max A.x1 B.x1) 0 * max (min A.y2 B.y2 - max A.y1 B.y1) 0|

/-- Source lines 404-405: `abs((box[2] - box[0]) * (box[3] - box[1]))`. -/
def boxArea (A : BBox) : ℚ := |(A.x2 - A.x1) * (A.y2 - A.y1)|

/-- Source `bb_intersection_over_union`: returns 0 when the intersection
area is 0, else `interArea / (boxAArea + boxBArea - interArea)`. -/
def bb_intersection_over_union (A B : BBox) : ℚ :=
  if interArea A B = 0 then 0
  else interArea A B / (boxArea A + boxArea B - interArea A B)

/-- A well-formed box with positive area: the corner coordinates are
strictly ordered on both axes. -/
def posArea (A : BBox) : Prop := A.x1 < A.x2 ∧ A.y1 < A.y2

/-- A degenerate box of non-positive area: flat or inverted on some axis. -/
def nonPosArea (A : BBox) : Prop := A.x2 ≤ A.x1 ∨ A.y2 ≤ A.y1

/-- Two boxes are disjoint (their intersection rectangle has no positive
extent) on the x or the y axis. -/
def boxesDisjoint (A B : BBox) : Prop :=
  min A.x2 B.x2 ≤ max A.x1 B.x1 ∨ min A.y2 B.y2 ≤ max A.y1 B.y1

/-! ## Data model for the training-loss pipeline

An `S × S` mask grid is a function `Fin S → Fin S → Bool` (the rasterized
ground-truth occupancy) or `Fin S → Fin S → ℝ` (float tensors).  An image
contributes `n` foreground instances, each with a ground-truth class, a
ground-truth box, a ground-truth polygon list (head polygon explicit,
since the source dedupes and re-rasterizes by the first polygon `x[0]`),
and a proposal box. -/

/-- Boolean `S × S` grid. -/
abbrev GridB (S : ℕ) := Fin S → Fin S → Bool

/-- Real-valued `S × S` grid. -/
abbrev GridR (S : ℕ) := Fin S → Fin S → ℝ

/-- External collaborators used by `mask_rcnn_loss` but implemented outside
this repository: `raster` is `PolygonMasks(polys).crop_and_resize(box, S)`
from `detectron2.structures` (one mask, one box, returning a boolean grid);
`silFill` is the silhouette fill `cv.findContours` + `cv.drawContours`
(thickness -1) of a binary mask; `dilate3` and `erode3` are `cv.dilate` /
`cv.erode` with the fixed 3x3 ones kernel.  They are left unspecified. -/
structure Externals (P : Type) (S : ℕ) where
  raster : List P → BBox → GridB S
  silFill : GridB S → GridB S
  dilate3 : GridB S → GridB S
  erode3 : GridB S → GridB S

/-- The per-image foreground instances (`instances_per_image`): `n` rows,
each with ground-truth class, ground-truth box, ground-truth polygons
(first polygon `polyFst i` plus the rest), and the proposal box. -/
structure ImageData (C : ℕ) (P : Type) where
  n : ℕ
  gtClass : Fin n → Fin C
  gtBox : Fin n → BBox
  polyFst : Fin n → P
  polyRest : Fin n → List P
  propBox : Fin n → BBox

variable {P : Type} [DecidableEq P] {C S : ℕ}

/-- Row `i` of `gt_masks_per_image` (source lines 142-144): the instance's
own polygons rasterized against its proposal box. -/
def gtMaskRow (E : Externals P S) (img : ImageData C P) (i : Fin img.n) : GridB S :=
  E.raster (img.polyFst i :: img.polyRest i) (img.propBox i)

/-- Source lines 151-159: the boundary band of one ground-truth mask, the
elementwise `bitwise_xor` of the 3x3 dilation and the 3x3 erosion of the
filled silhouette of the mask. -/
def boundary_band (E : Externals P S) (m : GridB S) : GridB S :=
  fun a b => Bool.xor (E.dilate3 (E.silFill m) a b) (E.erode3 (E.silFill m) a b)

/-- Source line 118: the configured boundary weight constant. -/
def BNDRY_WT : ℝ := 0

/-- Source lines 216-217: `torch.where(band == 1, BNDRY_WT * ones, ones)`
applied to one stacked boundary-band row. -/
noncomputable def boundaryWeightOfBand (g : GridB S) : GridR S :=
  fun a b => if g a b then BNDRY_WT else 1

/-- Source lines 177-183: the inner loop over the proposal boxes looking
for the best IoU against one ground-truth box.  State is the running pair
`(best_iou, best_box)`, started at `(0, 0)`; an update happens only on a
strict improvement `best_iou < iou`. -/
def bestLoop (g : BBox) : List BBox → ℕ → ℚ × ℕ → ℚ × ℕ
  | [], _, st => st
  | b :: rest, j, st =>
      bestLoop g rest (j + 1)
        (if st.1 < bb_intersection_over_union g b then (bb_intersection_over_union g b, j) else st)

/-- The index of the proposal box selected for ground-truth box `g`. -/
def best_box (g : BBox) (props : List BBox) : ℕ := (bestLoop g props 0 (0, 0)).2

/-- The proposal boxes of an image, in row order. -/
def propList (img : ImageData C P) : List BBox := List.ofFn img.propBox

/-- The ground-truth boxes of an image, in row order (`ins_gt_boxes`). -/
def gtBoxList (img : ImageData C P) : List BBox := List.ofFn img.gtBox

/-- Lexicographic order on box coordinate rows, modelling the sorted order
in which `np.unique(..., axis=0)` returns the unique ground-truth boxes. -/
def lexLe (a b : BBox) : Prop :=
  a.x1 < b.x1 ∨ (a.x1 = b.x1 ∧ (a.y1 < b.y1 ∨ (a.y1 = b.y1 ∧
    (a.x2 < b.x2 ∨ (a.x2 = b.x2 ∧ a.y2 ≤ b.y2)))))

instance : DecidableRel lexLe := fun a b => by unfold lexLe; infer_instance

/-- Source line 171: `np.unique(ins_gt_boxes, axis=0, return_counts=True)`,
the distinct ground-truth boxes in sorted order, each with the number of
instance rows sharing it. -/
def uniqueBoxCounts (img : ImageData C P) : List (BBox × ℕ) :=
  (List.insertionSort lexLe (gtBoxList img).dedup).map fun b => (b, (gtBoxList img).count b)

/-- Source lines 174-185: `img_roi_penalty` starts as all-ones and, for
each unique ground-truth box in order, the row of its best-matching
proposal is overwritten with that box's duplicate count. -/
def img_roi_penalty (img : ImageData C P) : ℕ → ℚ :=
  (uniqueBoxCounts img).foldl
    (fun f gc => Function.update f (best_box gc.1 (propList img)) (gc.2 : ℚ)) fun _ => 1

/-- The first polygon `x[0]` of each instance's ground-truth mask. -/
def firstPolyList (img : ImageData C P) : List P := List.ofFn img.polyFst

/-- Source lines 192-195: the `done` loop collecting each first polygon
that has not been seen before, in iteration order. -/
def collectUniq : List P → List P → List P
  | [], _ => []
  | x :: rest, done =>
      if x ∈ done then collectUniq rest done else x :: collectUniq rest (x :: done)

/-- The distinct ground-truth objects of an image (dedup of the first
polygons, first occurrence kept). -/
def uniqPolys (img : ImageData C P) : List P := collectUniq (firstPolyList img) []

/-- Cast of the boolean rasterization to float. -/
noncomputable def boolToR (b : Bool) : ℝ := if b then 1 else 0

/-- Source lines 197-200: one distinct object's polygon `x` rasterized
against every proposal box of the image, cast to float. -/
noncomputable def objMaskVol (E : Externals P S) (img : ImageData C P) (x : P) :
    Fin img.n → GridR S :=
  fun j a b => boolToR (E.raster [x] (img.propBox j) a b)

/-- Source lines 203-207: the sum over all unordered pairs of distinct
objects of the elementwise product of their mask volumes
(`itertools.combinations` of the volume list, products summed; real
addition is commutative so the recursive pairing order is immaterial). -/
noncomputable def pairProdSum {N : ℕ} : List (Fin N → GridR S) → Fin N → GridR S
  | [] => fun _ _ _ => 0
  | v :: rest => fun j a b =>
      ((rest.map fun w => v j a b * w j a b).sum) + pairProdSum rest j a b

/-- Source lines 201-210: `per_ins_overlap_masks` for one image — if more
than one distinct object exists, the pairwise-overlap volume multiplied
elementwise by the instance's own ground-truth mask, else the zero tensor. -/
noncomputable def overlap_penalty_img (E : Externals P S) (img : ImageData C P) :
    Fin img.n → GridR S :=
  if 1 < ((uniqPolys img).map (objMaskVol E img)).length then
    fun j a b =>
      pairProdSum ((uniqPolys img).map (objMaskVol E img)) j a b *
        boolToR (gtMaskRow E img j a b)
  else fun _ _ _ => 0

/-! ## Assembly of the training loss (source lines 214-297)

The remaining steps of `mask_rcnn_loss` concatenate the per-image rows
into batch-level tensors, select the logit channel of each instance's
ground-truth class, and combine three weighted binary-cross-entropy terms
through the learned log-variance scalars.  `torch.stack` / `torch.cat`
raise a runtime error on an empty tensor list and the advanced-indexing /
elementwise steps raise on mismatched leading dimensions; a raised error
is modelled as `none`. -/

/-- Elementwise zip of three equally long lists. -/
def zipW3 {α β γ δ : Type} (f : α → β → γ → δ) : List α → List β → List γ → List δ
  | a :: as, b :: bs, c :: cs => f a b c :: zipW3 f as bs cs
  | _, _, _ => []

/-- `torch.stack(l)` / `torch.cat(l)`: the list of rows itself, but a
raised `RuntimeError` (`none`) when the tensor list is empty. -/
def stackG {α : Type} (l : List α) : Option (List α) :=
  if l.isEmpty then none else some l

/-- Total number of foreground instances across the batch. -/
def totalN (batch : List (ImageData C P)) : ℕ := (batch.map fun img => img.n).sum

/-- Rows of `cat(gt_masks, dim=0)`: each contributing image's rasterized
ground-truth masks, in batch order (an image with no instances is skipped
by the loop and contributes no rows). -/
def gtMaskRows (E : Externals P S) (batch : List (ImageData C P)) : List (GridB S) :=
  batch.flatMap fun img => List.ofFn (gtMaskRow E img)

/-- The float targets `gt_masks.to(dtype=torch.float32)`. -/
noncomputable def targetRows (E : Externals P S) (batch : List (ImageData C P)) :
    List (GridR S) :=
  (gtMaskRows E batch).map fun m a b => boolToR (m a b)

/-- Rows of `cat(gt_classes, dim=0)`. -/
def classRows (batch : List (ImageData C P)) : List (Fin C) :=
  batch.flatMap fun img => List.ofFn img.gtClass

/-- Rows of `torch.stack(boundary_penalty)`: one boundary band per
ground-truth mask across the batch. -/
def bandRows (E : Externals P S) (batch : List (ImageData C P)) : List (GridB S) :=
  batch.flatMap fun img => List.ofFn fun i => boundary_band E (gtMaskRow E img i)

/-- Rows of `torch.cat(roi_penalty, 0)`: the per-instance scalar
duplicate-box weights across the batch. -/
def roiRows (batch : List (ImageData C P)) : List ℚ :=
  batch.flatMap fun img => List.ofFn fun i : Fin img.n => img_roi_penalty img i.val

/-- Rows of `torch.cat(overlap_penalty, 0)`: the raw per-instance overlap
volumes across the batch. -/
noncomputable def overlapRows (E : Externals P S) (batch : List (ImageData C P)) :
    List (GridR S) :=
  batch.flatMap fun img => List.ofFn (overlap_penalty_img E img)

/-- The images the loop does not skip (`len(instances_per_image) > 0`);
`roi_penalty` and `overlap_penalty` hold one tensor per such image, so
`torch.cat` on them raises exactly when this list is empty, and `gt_masks`
is empty exactly when this list is. -/
def contribImgs (batch : List (ImageData C P)) : List (ImageData C P) :=
  batch.filter fun img => img.n != 0

/-- Line 216: the stacked boundary bands converted to weights by
`torch.where(band == 1, BNDRY_WT, 1)`. -/
noncomputable def boundaryWeightRows (E : Externals P S) (batch : List (ImageData C P)) :
    List (GridR S) :=
  (bandRows E batch).map boundaryWeightOfBand

/-- The `[N,1,1]` roi weights broadcast over the pixel grid. -/
noncomputable def roiWeightRows (batch : List (ImageData C P)) : List (GridR S) :=
  (roiRows batch).map fun q _ _ => (q : ℝ)

/-- Line 227: `quad` applied elementwise to the concatenated raw overlap
volumes. -/
noncomputable def overlapWeightRows (E : Externals P S) (batch : List (ImageData C P)) :
    List (GridR S) :=
  (overlapRows E batch).map fun g a b => quad (g a b)

/-- The logistic sigmoid. -/
noncomputable def sigmoid (x : ℝ) : ℝ := 1 / (1 + Real.exp (-x))

/-- One element of `F.binary_cross_entropy_with_logits(x, y)` (reduction
"none", unit weight): `-(y*log(sigmoid x) + (1-y)*log(1 - sigmoid x))`,
written in its standard closed form `log(1 + exp(-x)) + (1-y)*x`. -/
noncomputable def bce_with_logits (x y : ℝ) : ℝ :=
  Real.log (1 + Real.exp (-x)) + (1 - y) * x

/-- An elementwise weighted BCE tensor (lines 278-285): weight times the
unweighted elementwise BCE of logits against targets. -/
noncomputable def weightedBCERows (w xs ys : List (GridR S)) : List (GridR S) :=
  zipW3 (fun wg xg yg a b => wg a b * bce_with_logits (xg a b) (yg a b)) w xs ys

/-- Lines 238-243: class selection of the logits.  With a single channel
(`cls_agnostic_mask`), `pred_mask_logits[:, 0]`; otherwise the gather
`pred_mask_logits[arange(B), gt_classes]`, which raises (`none`) unless
the flattened class list has exactly one entry per logits row. -/
def select_logits (logits : List (Fin C → GridR S)) (classes : List (Fin C)) :
    Option (List (GridR S)) :=
  if hC : C = 1 then some (logits.map fun row => row ⟨0, by omega⟩)
  else if logits.length = classes.length then
    some (List.zipWith (fun row c => row c) logits classes)
  else none

/-- The value `select_logits` returns when it does not raise. -/
def selValue (logits : List (Fin C → GridR S)) (classes : List (Fin C)) :
    List (GridR S) :=
  if hC : C = 1 then logits.map fun row => row ⟨0, by omega⟩
  else List.zipWith (fun row c => row c) logits classes

/-- Sum of all entries of a grid. -/
noncomputable def gridSum (g : GridR S) : ℝ := ∑ a : Fin S, ∑ b : Fin S, g a b

/-- `torch.mean` of an `[N,S,S]` tensor: the sum of all elements divided
by the element count `N*S*S`. -/
noncomputable def tensorMean (rows : List (GridR S)) : ℝ :=
  (rows.map gridSum).sum / ((rows.length * S * S : ℕ) : ℝ)

/-- `pred_mask_logits.sum()`, over every channel of every row. -/
noncomputable def logitsTotal (logits : List (Fin C → GridR S)) : ℝ :=
  (logits.map fun row => ∑ c : Fin C, gridSum (row c)).sum

/-- The training loss `BaseMaskRCNNHead.mask_rcnn_loss` (lines 214-297).
In code order: stack the boundary bands (raises on an empty batch of
instances), cat the per-image roi and overlap tensors (raises when no
image contributes instances — both cats share that condition, modelled by
one guard on `contribImgs`), the `len(gt_masks) == 0` early return of
`pred_mask_logits.sum() * 0`, the class selection, and the three weighted
BCE terms combined as `p1*L0 + v0`, then `+ p2*L1 + v1`, then
`+ p3*L2 + v2` with `p_i = exp(-v_i)`, finally `torch.mean`.  The
elementwise steps require the selected logits and targets to agree in
length (shape errors are `none`).  The metrics/visualization side effects
of lines 252-271 write to an external event sink and do not affect the
returned value; the zip archival of lines 119-130 is likewise external. -/
noncomputable def mask_rcnn_loss (E : Externals P S) (v : Fin 3 → ℝ)
    (logits : List (Fin C → GridR S)) (batch : List (ImageData C P)) : Option ℝ :=
  (stackG (bandRows E batch)).bind fun band =>
  (stackG (contribImgs batch)).bind fun _ =>
  if (contribImgs batch).isEmpty then some (logitsTotal logits * 0)
  else
    (select_logits logits (classRows batch)).bind fun sel =>
    if sel.length = (targetRows E batch).length then
      some (tensorMean (zipW3
        (fun l0 l1 l2 a b =>
          (Real.exp (-(v 0)) * l0 a b + v 0) + (Real.exp (-(v 1)) * l1 a b + v 1) +
            (Real.exp (-(v 2)) * l2 a b + v 2))
        (weightedBCERows ((band.map boundaryWeightOfBand)) sel (targetRows E batch))
        (weightedBCERows (roiWeightRows batch) sel (targetRows E batch))
        (weightedBCERows (overlapWeightRows E batch) sel (targetRows E batch))))
    else none

/-! ## Inference (source lines 30-68) -/

/-- The per-image predicted instances handed to `mask_rcnn_inference`:
`n` rows with a predicted class each, plus the record's other, pre-existing
fields (boxes, scores, ...), kept opaque as `extra`. -/
structure InfInstances (C : ℕ) (α : Type) where
  n : ℕ
  predClass : Fin n → Fin C
  extra : α

/-- Total number of predicted instances across the batch. -/
def totalInfN {α : Type} (insts : List (InfInstances C α)) : ℕ :=
  (insts.map fun im => im.n).sum

/-- Line 59: `cat([i.pred_classes for i in pred_instances])`. -/
def flatClasses {α : Type} (insts : List (InfInstances C α)) : List (Fin C) :=
  insts.flatMap fun im => List.ofFn im.predClass

/-- `tensor.split(sizes, dim=0)`: consecutive chunks of the given sizes;
raises (`none`) unless the sizes sum to exactly the length. -/
def splitByCounts {α : Type} : List α → List ℕ → Option (List (List α))
  | l, [] => if l.isEmpty then some [] else none
  | l, c :: cs =>
      if c ≤ l.length then
        (splitByCounts (l.drop c) cs).map fun rest => l.take c :: rest
      else none

/-- Class-agnostic row transform (line 55): sigmoid of the only channel. -/
noncomputable def sigAg (h : C = 1) : (Fin C → GridR S) → GridR S :=
  fun row a b => sigmoid (row ⟨0, by omega⟩ a b)

/-- Class-specific row transform (line 61): sigmoid of one gathered
channel. -/
noncomputable def sigGather : (Fin C → GridR S) → Fin C → GridR S :=
  fun row c a b => sigmoid (row c a b)

/-- `mask_rcnn_inference` (lines 30-68): with one channel, sigmoid of it;
otherwise gather each row's channel at its predicted class (the advanced
indexing raises, `none`, unless the concatenated classes are 1:1 with the
logit rows); split the probabilities per image and attach each chunk to
its image's record as the new `pred_masks` field.  The in-place field
assignment is modelled functionally: each record is returned unchanged,
paired with the masks attached to it. -/
noncomputable def mask_rcnn_inference {α : Type} (logits : List (Fin C → GridR S))
    (insts : List (InfInstances C α)) :
    Option (List (InfInstances C α × List (GridR S))) :=
  (if hC : C = 1 then some (logits.map (sigAg hC))
   else if logits.length = (flatClasses insts).length then
     some (List.zipWith sigGather logits (flatClasses insts))
   else none).bind fun probs =>
  (splitByCounts probs (insts.map fun im => im.n)).bind fun chunks =>
  some (List.zipWith (fun im ms => (im, ms)) insts chunks)

/-- The channel the head attaches for instance `i`: channel 0 in the
class-agnostic case, else the instance's predicted class. -/
def chanSel {α : Type} (im : InfInstances C α) (i : Fin im.n) : Fin C :=
  if hC : C = 1 then ⟨0, by omega⟩ else im.predClass i

/-- The output the specification describes, built directly per image: each
record unchanged, its attached masks the sigmoid of its own logit rows
(located by the running row offset) at the selected channel. -/
noncomputable def inference_expected {α : Type} :
    List (Fin C → GridR S) → List (InfInstances C α) →
      List (InfInstances C α × List (GridR S))
  | _, [] => []
  | ls, im :: rest =>
      (im, List.ofFn fun i : Fin im.n => fun a b =>
        sigmoid ((ls.getD i.val fun _ _ _ => 0) (chanSel im i) a b)) ::
      inference_expected (ls.drop im.n) rest

/-- Rows attached per image by consecutive chunks of the given row list. -/
def attachChunks {α β : Type} : List β → List (InfInstances C α) →
    List (InfInstances C α × List β)
  | _, [] => []
  | ls, im :: rest => (im, ls.take im.n) :: attachChunks (ls.drop im.n) rest

/-! ## Concrete example inputs used by witnesses -/

/-- Externals on 1x1 grids: rasterizer always occupied, morphology passes
grids through unchanged. -/
def egE : Externals ℕ 1 := ⟨fun _ _ _ _ => true, id, id, id⟩

/-- Externals on 1x1 grids whose erosion is empty, so every occupied pixel
of the dilation lies on the boundary band. -/
def egE2 : Externals ℕ 1 := ⟨fun _ _ _ _ => true, id, id, fun _ _ _ => false⟩

/-- The all-true 1x1 mask. -/
def mTop : GridB 1 := fun _ _ => true

/-- A single-instance image: one ground-truth object, proposal identical
to the ground-truth box. -/
def img1 : ImageData 1 ℕ :=
  ⟨1, fun _ => 0, fun _ => ⟨0, 0, 2, 2⟩, fun _ => 7, fun _ => [], fun _ => ⟨0, 0, 2, 2⟩⟩

/-- A 2-row image duplicating one ground-truth box `(0,0,2,2)` across both
rows; row 0's proposal is disjoint from it, row 1's proposal matches it. -/
def img6 : ImageData 1 ℕ :=
  ⟨2, fun _ => 0, fun _ => ⟨0, 0, 2, 2⟩, fun i => i.val, fun _ => [],
    fun i => if i.val = 0 then ⟨10, 10, 11, 11⟩ else ⟨0, 0, 2, 2⟩⟩

/-- A 1-row image whose proposal box is disjoint from its ground-truth
box, so no proposal has positive IoU against it. -/
def img10 : ImageData 1 ℕ :=
  ⟨1, fun _ => 0, fun _ => ⟨0, 0, 2, 2⟩, fun _ => 5, fun _ => [], fun _ => ⟨10, 10, 11, 11⟩⟩

/-- An image record with no foreground instances. -/
def imgEmpty : ImageData 1 ℕ :=
  ⟨0, fun i => i.elim0, fun i => i.elim0, fun i => i.elim0, fun i => i.elim0, fun i => i.elim0⟩

/-- The all-zero log-variance vector. -/
noncomputable def vZero : Fin 3 → ℝ := fun _ => 0

/-- A single all-zero single-channel logit row on the 1x1 grid. -/
noncomputable def rowZero : Fin 1 → GridR 1 := fun _ _ _ => 0

/-- A single all-zero two-channel logit row on the 1x1 grid. -/
noncomputable def rowZero2 : Fin 2 → GridR 1 := fun _ _ _ => 0

/-- A one-instance predicted-instances record (class 1 of 2). -/
def inf1 : InfInstances 2 ℕ := ⟨1, fun _ => ⟨1, Nat.one_lt_two⟩, 42⟩

/-! ## Helper lemmas -/

theorem sqrt_nine : Real.sqrt 9 = 3 := by
  rw [show (9 : ℝ) = 3 ^ 2 by norm_num, Real.sqrt_sq (by norm_num : (0:ℝ) ≤ 3)]

theorem quadRadicand_one : quadRadicand 1 = 9 := by
  norm_num [quadRadicand]

theorem interArea_comm (A B : BBox) : interArea A B = interArea B A := by
  unfold interArea
  rw [min_comm A.x2 B.x2, max_comm A.x1 B.x1, min_comm A.y2 B.y2, max_comm A.y1 B.y1]

theorem interArea_zero_of_x (A B : BBox) (h : min A.x2 B.x2 ≤ max A.x1 B.x1) :
    interArea A B = 0 := by
  unfold interArea
  rw [max_eq_right (sub_nonpos.mpr h), zero_mul, abs_zero]

theorem interArea_zero_of_y (A B : BBox) (h : min A.y2 B.y2 ≤ max A.y1 B.y1) :
    interArea A B = 0 := by
  unfold interArea
  rw [max_eq_right (sub_nonpos.mpr h), mul_zero, abs_zero]

theorem iou_zero_of_interArea (A B : BBox) (h : interArea A B = 0) :
    bb_intersection_over_union A B = 0 := by
  unfold bb_intersection_over_union
  rw [if_pos h]

/-! ## Claim theorems about quad and IoU -/

/-- C3 counterexample: the code maps a raw per-pixel overlap count of
exactly 1 to the overlap weight 2, not 1: the reassignment `c = -2*c`
makes the radicand `1 - 4*(-2) = 9`, so the larger root is `(1+3)/2 = 2`. -/
theorem quad_one_ne_one : ¬ quad 1 = 1 := by
  unfold quad
  rw [quadRadicand_one, sqrt_nine]
  norm_num

/-- C3 (amended): the overlap-weight transform maps a raw per-pixel overlap
count of exactly 1 to a final overlap weight of exactly 2.0, the larger
root of the code's quadratic (whose radicand at count 1 is 9). -/
theorem quad_at_one : quad 1 = 2 := by
  unfold quad
  rw [quadRadicand_one, sqrt_nine]
  norm_num

/-- C5 counterexample: at raw count `c = 1/2 > 0.25` the radicand the code
actually forms is `1 - 4*(-2*(1/2)) = 5`, which is not negative, refuting
the claim that the radicand is negative exactly when `c > 0.25`. -/
theorem quadRadicand_half_not_neg : (1/4 : ℝ) < 1/2 ∧ ¬ quadRadicand (1/2) < 0 := by
  constructor
  · norm_num
  · norm_num [quadRadicand]

/-- C5 (amended): the radicand of the code's square root equals `1 + 8c`;
it is negative exactly when the raw overlap count `c` is below `-1/8`, and
for every non-negative raw overlap count it is non-negative, so on actual
(non-negative) overlap counts the transform is always defined. -/
theorem quadRadicand_spec (c : ℝ) :
    (quadRadicand c < 0 ↔ c < -(1/8)) ∧ (0 ≤ c → 0 ≤ quadRadicand c) := by
  unfold quadRadicand
  constructor
  · constructor <;> intro h <;> linarith
  · intro h; linarith

/-- C5 witness: the amended radicand fact applied at the concrete count 1. -/
theorem quadRadicand_spec_witness : 0 ≤ quadRadicand 1 :=
  (quadRadicand_spec 1).2 (by norm_num)

/-- C8: IoU is symmetric; a box of positive area has IoU 1 with itself;
and the IoU of disjoint boxes, or of any pair in which either box has
non-positive area, is 0. -/
theorem iou_spec (A B : BBox) :
    bb_intersection_over_union A B = bb_intersection_over_union B A ∧
    (posArea A → bb_intersection_over_union A A = 1) ∧
    ((boxesDisjoint A B ∨ nonPosArea A ∨ nonPosArea B) →
      bb_intersection_over_union A B = 0) := by
  refine ⟨?_, ?_, ?_⟩
  · unfold bb_intersection_over_union
    rw [interArea_comm A B, add_comm (boxArea A) (boxArea B)]
  · rintro ⟨hx, hy⟩
    have harea : (0:ℚ) < (A.x2 - A.x1) * (A.y2 - A.y1) :=
      mul_pos (sub_pos.mpr hx) (sub_pos.mpr hy)
    have hinter : interArea A A = (A.x2 - A.x1) * (A.y2 - A.y1) := by
      unfold interArea
      rw [min_self, max_self, min_self, max_self,
        max_eq_left (le_of_lt (sub_pos.mpr hx)),
        max_eq_left (le_of_lt (sub_pos.mpr hy)), abs_of_pos harea]
    have hbox : boxArea A = (A.x2 - A.x1) * (A.y2 - A.y1) := by
      unfold boxArea; rw [abs_of_pos harea]
    unfold bb_intersection_over_union
    rw [hinter, hbox, if_neg (ne_of_gt harea)]
    have : (A.x2 - A.x1) * (A.y2 - A.y1) + (A.x2 - A.x1) * (A.y2 - A.y1) -
        (A.x2 - A.x1) * (A.y2 - A.y1) = (A.x2 - A.x1) * (A.y2 - A.y1) := by ring
    rw [this, div_self (ne_of_gt harea)]
  · rintro (h | h | h)
    · rcases h with hx | hy
      · exact iou_zero_of_interArea A B (interArea_zero_of_x A B hx)
      · exact iou_zero_of_interArea A B (interArea_zero_of_y A B hy)
    · rcases h with hx | hy
      · refine iou_zero_of_interArea A B (interArea_zero_of_x A B ?_)
        calc min A.x2 B.x2 ≤ A.x2 := min_le_left _ _
          _ ≤ A.x1 := hx
          _ ≤ max A.x1 B.x1 := le_max_left _ _
      · refine iou_zero_of_interArea A B (interArea_zero_of_y A B ?_)
        calc min A.y2 B.y2 ≤ A.y2 := min_le_left _ _
          _ ≤ A.y1 := hy
          _ ≤ max A.y1 B.y1 := le_max_left _ _
    · rcases h with hx | hy
      · refine iou_zero_of_interArea A B (interArea_zero_of_x A B ?_)
        calc min A.x2 B.x2 ≤ B.x2 := min_le_right _ _
          _ ≤ B.x1 := hx
          _ ≤ max A.x1 B.x1 := le_max_right _ _
      · refine iou_zero_of_interArea A B (interArea_zero_of_y A B ?_)
        calc min A.y2 B.y2 ≤ B.y2 := min_le_right _ _
          _ ≤ B.y1 := hy
          _ ≤ max A.y1 B.y1 := le_max_right _ _

/-- C8 witness: the IoU facts applied to the boxes `(0,0,4,4)` (self IoU 1)
and the disjoint pair `(0,0,1,1)`, `(2,2,3,3)` (IoU 0). -/
theorem iou_spec_witness :
    bb_intersection_over_union ⟨0,0,4,4⟩ ⟨0,0,4,4⟩ = 1 ∧
    bb_intersection_over_union ⟨0,0,1,1⟩ ⟨2,2,3,3⟩ = 0 :=
  ⟨(iou_spec ⟨0,0,4,4⟩ ⟨0,0,4,4⟩).2.1 (by constructor <;> norm_num),
   (iou_spec ⟨0,0,1,1⟩ ⟨2,2,3,3⟩).2.2 (Or.inl (Or.inl (by norm_num)))⟩

/-! ## Fold lemmas for the duplicate-box (roi) weight loop -/

theorem bestLoop_absorb (g : BBox) :
    ∀ (props : List BBox) (j0 : ℕ) (st : ℚ × ℕ),
      (∀ b ∈ props, bb_intersection_over_union g b ≤ st.1) →
      bestLoop g props j0 st = st
  | [], _, _, _ => rfl
  | b :: rest, j0, st, h => by
      simp only [bestLoop]
      rw [if_neg (not_lt.mpr (h b (List.mem_cons_self b rest)))]
      exact bestLoop_absorb g rest (j0 + 1) st fun b' hb' => h b' (List.mem_cons_of_mem b hb')

theorem bestLoop_dominant (g : BBox) :
    ∀ (props : List BBox) (k : ℕ) (hk : k < props.length) (j0 : ℕ) (st : ℚ × ℕ),
      (∀ (m : ℕ) (hm : m < props.length), m ≠ k →
        bb_intersection_over_union g (props.get ⟨m, hm⟩) <
          bb_intersection_over_union g (props.get ⟨k, hk⟩)) →
      st.1 < bb_intersection_over_union g (props.get ⟨k, hk⟩) →
      bestLoop g props j0 st = (bb_intersection_over_union g (props.get ⟨k, hk⟩), j0 + k)
  | [], k, hk, _, _, _, _ => absurd hk (Nat.not_lt_zero k)
  | b :: rest, 0, hk, j0, st, hdom, hst => by
      simp only [bestLoop]
      have hb : (b :: rest).get ⟨0, hk⟩ = b := rfl
      rw [hb] at hst ⊢
      rw [if_pos hst, Nat.add_zero]
      apply bestLoop_absorb
      intro b' hb'
      obtain ⟨⟨m, hm⟩, hEq⟩ := List.get_of_mem hb'
      rw [← hEq]
      exact le_of_lt (hdom (m + 1) (Nat.succ_lt_succ hm) (Nat.succ_ne_zero m))
  | b :: rest, k + 1, hk, j0, st, hdom, hst => by
      simp only [bestLoop]
      have hk' : k < rest.length := Nat.lt_of_succ_lt_succ hk
      have hdom' : ∀ (m : ℕ) (hm : m < rest.length), m ≠ k →
          bb_intersection_over_union g (rest.get ⟨m, hm⟩) <
            bb_intersection_over_union g (rest.get ⟨k, hk'⟩) := fun m hm hmk =>
        hdom (m + 1) (Nat.succ_lt_succ hm) fun hEq => hmk (Nat.succ_injective hEq)
      have hb0 : bb_intersection_over_union g b <
          bb_intersection_over_union g (rest.get ⟨k, hk'⟩) :=
        hdom 0 (Nat.zero_lt_succ _) (Nat.succ_ne_zero k).symm
      have hst' : (if st.1 < bb_intersection_over_union g b
            then (bb_intersection_over_union g b, j0) else st).1 <
          bb_intersection_over_union g (rest.get ⟨k, hk'⟩) := by
        by_cases hc : st.1 < bb_intersection_over_union g b
        · rw [if_pos hc]; exact hb0
        · rw [if_neg hc]; exact hst
      rw [bestLoop_dominant g rest k hk' (j0 + 1) _ hdom' hst']
      simp only [Prod.mk.injEq]
      exact ⟨rfl, by omega⟩

theorem best_box_dominant (g : BBox) (props : List BBox) (k : ℕ) (hk : k < props.length)
    (hdom : ∀ (m : ℕ) (hm : m < props.length), m ≠ k →
      bb_intersection_over_union g (props.get ⟨m, hm⟩) <
        bb_intersection_over_union g (props.get ⟨k, hk⟩))
    (hpos : 0 < bb_intersection_over_union g (props.get ⟨k, hk⟩)) :
    best_box g props = k := by
  unfold best_box
  rw [bestLoop_dominant g props k hk 0 (0, 0) hdom hpos]
  simp

theorem propList_length (img : ImageData C P) : (propList img).length = img.n := by
  simp [propList]

theorem propList_get (img : ImageData C P) (m : ℕ) (hm : m < (propList img).length) :
    (propList img).get ⟨m, hm⟩ = img.propBox ⟨m, by simpa [propList] using hm⟩ := by
  simp [propList, List.get_ofFn]

theorem gtBoxList_const (img : ImageData C P) (g : BBox) (hbox : ∀ i, img.gtBox i = g) :
    gtBoxList img = List.replicate img.n g := by
  unfold gtBoxList
  rw [show img.gtBox = fun _ => g from funext hbox]
  exact List.ofFn_const img.n g

theorem dedup_replicate_of_pos (g : BBox) (n : ℕ) (hn : 0 < n) :
    (List.replicate n g).dedup = [g] := by
  induction n with
  | zero => exact absurd hn (lt_irrefl 0)
  | succ m ih =>
    rcases Nat.eq_zero_or_pos m with h | h
    · subst h; simp
    · rw [List.replicate_succ,
        List.dedup_cons_of_mem (List.mem_replicate.mpr ⟨Nat.pos_iff_ne_zero.mp h, rfl⟩), ih h]

theorem uniqueBoxCounts_const (img : ImageData C P) (g : BBox)
    (hbox : ∀ i, img.gtBox i = g) (hn : 0 < img.n) :
    uniqueBoxCounts img = [(g, img.n)] := by
  unfold uniqueBoxCounts
  rw [gtBoxList_const img g hbox, dedup_replicate_of_pos g img.n hn,
    show List.insertionSort lexLe [g] = [g] from rfl]
  simp

theorem img_roi_penalty_const (img : ImageData C P) (g : BBox)
    (hbox : ∀ i, img.gtBox i = g) (hn : 0 < img.n) :
    img_roi_penalty img =
      Function.update (fun _ => (1 : ℚ)) (best_box g (propList img)) (img.n : ℚ) := by
  unfold img_roi_penalty
  rw [uniqueBoxCounts_const img g hbox hn]
  rfl

theorem iou_sep_example : bb_intersection_over_union ⟨0, 0, 2, 2⟩ ⟨10, 10, 11, 11⟩ = 0 := by
  norm_num [bb_intersection_over_union, interArea, boxArea, min_def, max_def]

theorem iou_self_example : bb_intersection_over_union ⟨0, 0, 2, 2⟩ ⟨0, 0, 2, 2⟩ = 1 := by
  norm_num [bb_intersection_over_union, interArea, boxArea, min_def, max_def]

/-! ## Claim theorems about the penalty builders -/

/-- C4: for an image containing zero or one distinct ground-truth object
(at most one distinct first polygon), the per-image overlap penalty volume
`per_ins_overlap_masks` is all-zero at every instance row and pixel. -/
theorem overlap_volume_all_zero (E : Externals P S) (img : ImageData C P)
    (h : (uniqPolys img).length ≤ 1) :
    ∀ (j : Fin img.n) (a b : Fin S), overlap_penalty_img E img j a b = 0 := by
  intro j a b
  unfold overlap_penalty_img
  rw [if_neg (by rw [List.length_map]; omega)]

/-- C4 witness: the single-object image `img1` gets an all-zero overlap
volume. -/
theorem overlap_volume_all_zero_witness :
    overlap_penalty_img egE img1 ⟨0, Nat.one_pos⟩ 0 0 = 0 :=
  overlap_volume_all_zero egE img1 (by decide) ⟨0, Nat.one_pos⟩ 0 0

/-- C7: the boundary weight of one ground-truth mask equals the configured
boundary constant `BNDRY_WT` (which is 0) at every pixel of the boundary
band — the exclusive-or of the 3x3 dilation and the 3x3 erosion of the
mask's filled silhouette — and equals 1 at every other pixel. -/
theorem boundary_weight_spec (E : Externals P S) (m : GridB S) (a b : Fin S) :
    BNDRY_WT = 0 ∧
    (boundary_band E m a b = true →
      boundaryWeightOfBand (boundary_band E m) a b = BNDRY_WT) ∧
    (boundary_band E m a b = false →
      boundaryWeightOfBand (boundary_band E m) a b = 1) := by
  refine ⟨rfl, fun h => ?_, fun h => ?_⟩
  · simp [boundaryWeightOfBand, h]
  · simp [boundaryWeightOfBand, h]

/-- C7 witness: with empty erosion the occupied pixel of the all-true mask
is on the band and weighs `BNDRY_WT`; with identity morphology the band is
empty and the pixel weighs 1. -/
theorem boundary_weight_spec_witness :
    boundaryWeightOfBand (boundary_band egE2 mTop) 0 0 = BNDRY_WT ∧
    boundaryWeightOfBand (boundary_band egE mTop) 0 0 = 1 :=
  ⟨(boundary_weight_spec egE2 mTop 0 0).2.1 rfl,
   (boundary_weight_spec egE mTop 0 0).2.2 rfl⟩

/-- C6: in an image whose instance rows all share one identical
ground-truth box `g` (duplicated across all `img.n = k` rows), the
duplicate-box weight of the row whose proposal has the strictly highest
(and positive) IoU against `g` equals the duplicate count `k`, and every
other row keeps weight 1. -/
theorem roi_duplicate_weight (img : ImageData C P) (g : BBox) (jstar : Fin img.n)
    (hbox : ∀ i, img.gtBox i = g)
    (hdom : ∀ m : Fin img.n, m ≠ jstar →
      bb_intersection_over_union g (img.propBox m) <
        bb_intersection_over_union g (img.propBox jstar))
    (hpos : 0 < bb_intersection_over_union g (img.propBox jstar)) :
    img_roi_penalty img jstar.val = (img.n : ℚ) ∧
      ∀ j : ℕ, j ≠ jstar.val → img_roi_penalty img j = 1 := by
  have hn : 0 < img.n := jstar.pos
  have hkl : jstar.val < (propList img).length := by
    rw [propList_length]; exact jstar.isLt
  have hbest : best_box g (propList img) = jstar.val := by
    refine best_box_dominant g (propList img) jstar.val hkl ?_ ?_
    · intro m hm hmk
      rw [propList_get img m hm, propList_get img jstar.val hkl]
      exact hdom ⟨m, by rw [propList_length] at hm; exact hm⟩
        (fun hEq => hmk (congrArg Fin.val hEq))
    · rw [propList_get img jstar.val hkl]
      exact hpos
  rw [img_roi_penalty_const img g hbox hn, hbest]
  refine ⟨Function.update_same _ _ _, fun j hj => ?_⟩
  rw [Function.update_noteq hj]

/-- C6 witness: in `img6` both rows carry the ground-truth box `(0,0,2,2)`
(duplicate count 2); row 1's proposal matches it exactly (IoU 1) while row
0's proposal is disjoint (IoU 0), so row 1 weighs 2 and row 0 weighs 1. -/
theorem roi_duplicate_weight_witness :
    img_roi_penalty img6 1 = 2 ∧ img_roi_penalty img6 0 = 1 := by
  have hdom : ∀ m : Fin img6.n, m ≠ ⟨1, Nat.one_lt_two⟩ →
      bb_intersection_over_union ⟨0, 0, 2, 2⟩ (img6.propBox m) <
        bb_intersection_over_union ⟨0, 0, 2, 2⟩ (img6.propBox ⟨1, Nat.one_lt_two⟩) := by
    intro m hm
    have hv : m.val ≠ 1 := fun h => hm (Fin.ext h)
    have hlt : m.val < 2 := m.isLt
    have hv0 : m.val = 0 := by omega
    have hmeq : m = (⟨0, Nat.zero_lt_two⟩ : Fin img6.n) := Fin.ext hv0
    rw [hmeq]
    show bb_intersection_over_union ⟨0, 0, 2, 2⟩ ⟨10, 10, 11, 11⟩ <
      bb_intersection_over_union ⟨0, 0, 2, 2⟩ ⟨0, 0, 2, 2⟩
    rw [iou_sep_example, iou_self_example]
    norm_num
  have hpos : 0 < bb_intersection_over_union ⟨0, 0, 2, 2⟩ (img6.propBox ⟨1, Nat.one_lt_two⟩) := by
    show (0 : ℚ) < bb_intersection_over_union ⟨0, 0, 2, 2⟩ ⟨0, 0, 2, 2⟩
    rw [iou_self_example]
    norm_num
  have h := roi_duplicate_weight img6 ⟨0, 0, 2, 2⟩ ⟨1, Nat.one_lt_two⟩ (fun _ => rfl) hdom hpos
  exact ⟨h.1.trans (by norm_num [img6]), h.2 0 Nat.zero_ne_one⟩

/-- C10: when no proposal box of the image has IoU strictly greater than 0
against a ground-truth box `g`, the best-match index stays at its starting
value 0; consequently, when `g` is the (duplicated) ground-truth box of
all rows, row 0 is overwritten with the duplicate count in place of its
initial weight 1, every other row keeping 1. -/
theorem roi_no_overlap_default (img : ImageData C P) (g : BBox)
    (hno : ∀ m : Fin img.n, ¬ 0 < bb_intersection_over_union g (img.propBox m)) :
    best_box g (propList img) = 0 ∧
      ((∀ i, img.gtBox i = g) → 0 < img.n →
        img_roi_penalty img 0 = (img.n : ℚ) ∧
          ∀ j : ℕ, j ≠ 0 → img_roi_penalty img j = 1) := by
  have hbest : best_box g (propList img) = 0 := by
    unfold best_box
    have habs : bestLoop g (propList img) 0 (0, 0) = (0, 0) := by
      apply bestLoop_absorb
      intro b hb
      obtain ⟨⟨m, hm⟩, hEq⟩ := List.get_of_mem hb
      rw [← hEq, propList_get img m hm]
      exact not_lt.mp (hno ⟨m, by rw [propList_length] at hm; exact hm⟩)
    rw [habs]
  refine ⟨hbest, fun hbox hn => ?_⟩
  rw [img_roi_penalty_const img g hbox hn, hbest]
  refine ⟨Function.update_same _ _ _, fun j hj => ?_⟩
  rw [Function.update_noteq hj]

/-- C10 witness: in `img10` the only proposal is disjoint from the
ground-truth box, yet row 0 receives the duplicate count (here 1). -/
theorem roi_no_overlap_default_witness :
    best_box ⟨0, 0, 2, 2⟩ (propList img10) = 0 ∧ img_roi_penalty img10 0 = 1 := by
  have hno : ∀ m : Fin img10.n,
      ¬ 0 < bb_intersection_over_union ⟨0, 0, 2, 2⟩ (img10.propBox m) := by
    intro m
    show ¬ (0 : ℚ) < bb_intersection_over_union ⟨0, 0, 2, 2⟩ ⟨10, 10, 11, 11⟩
    rw [iou_sep_example]
    exact lt_irrefl 0
  have h := roi_no_overlap_default img10 ⟨0, 0, 2, 2⟩ hno
  exact ⟨h.1, ((h.2 (fun _ => rfl) Nat.one_pos).1).trans (by norm_num [img10])⟩

/-! ## Lemmas about the batch-level row lists -/

theorem flatMap_ofFn_nil {α : Type} (batch : List (ImageData C P))
    (f : (img : ImageData C P) → Fin img.n → α)
    (h : ∀ img ∈ batch, img.n = 0) :
    (batch.flatMap fun img => List.ofFn (f img)) = [] := by
  induction batch with
  | nil => rfl
  | cons img rest ih =>
    rw [List.flatMap_cons, ih fun i hi => h i (List.mem_cons_of_mem _ hi),
      List.append_nil]
    exact List.eq_nil_of_length_eq_zero
      (by rw [List.length_ofFn]; exact h img (List.mem_cons_self _ _))

theorem length_flatMap_ofFn {α : Type} (batch : List (ImageData C P))
    (f : (img : ImageData C P) → Fin img.n → α) :
    (batch.flatMap fun img => List.ofFn (f img)).length = totalN batch := by
  induction batch with
  | nil => rfl
  | cons img rest ih =>
    simp only [List.flatMap_cons, List.length_append, List.length_ofFn, ih, totalN,
      List.map_cons, List.sum_cons]

theorem bandRows_length (E : Externals P S) (batch : List (ImageData C P)) :
    (bandRows E batch).length = totalN batch :=
  length_flatMap_ofFn batch _

theorem gtMaskRows_length (E : Externals P S) (batch : List (ImageData C P)) :
    (gtMaskRows E batch).length = totalN batch :=
  length_flatMap_ofFn batch _

theorem targetRows_length (E : Externals P S) (batch : List (ImageData C P)) :
    (targetRows E batch).length = totalN batch := by
  unfold targetRows
  rw [List.length_map]
  exact gtMaskRows_length E batch

theorem classRows_length (batch : List (ImageData C P)) :
    (classRows batch).length = totalN batch :=
  length_flatMap_ofFn batch _

theorem stackG_some {α : Type} (l : List α) (h : l ≠ []) : stackG l = some l := by
  unfold stackG
  rw [if_neg (by simpa [List.isEmpty_iff] using h)]

theorem exists_pos_of_totalN_pos (batch : List (ImageData C P)) (hN : 0 < totalN batch) :
    ∃ img ∈ batch, 0 < img.n := by
  by_contra h
  push_neg at h
  have hzero : totalN batch = 0 :=
    List.sum_eq_zero fun x hx => by
      obtain ⟨img, him, rfl⟩ := List.mem_map.mp hx
      exact Nat.le_zero.mp (h img him)
  omega

theorem contribImgs_ne_nil (batch : List (ImageData C P)) (hN : 0 < totalN batch) :
    contribImgs batch ≠ [] := by
  obtain ⟨img, him, hpos⟩ := exists_pos_of_totalN_pos batch hN
  exact List.ne_nil_of_mem (List.mem_filter.mpr
    ⟨him, by simpa using Nat.pos_iff_ne_zero.mp hpos⟩)

theorem select_logits_eq (logits : List (Fin C → GridR S)) (classes : List (Fin C))
    (hlen : logits.length = classes.length) :
    select_logits logits classes = some (selValue logits classes) := by
  unfold select_logits selValue
  by_cases hC : C = 1
  · rw [dif_pos hC, dif_pos hC]
  · rw [dif_neg hC, dif_neg hC, if_pos hlen]

theorem selValue_length (logits : List (Fin C → GridR S)) (classes : List (Fin C))
    (hlen : logits.length = classes.length) :
    (selValue logits classes).length = logits.length := by
  unfold selValue
  by_cases hC : C = 1
  · rw [dif_pos hC, List.length_map]
  · rw [dif_neg hC, List.length_zipWith, hlen, min_self]

theorem zipW3_congr {α β γ δ : Type} (f g : α → β → γ → δ)
    (h : ∀ a b c, f a b c = g a b c) :
    ∀ (as : List α) (bs : List β) (cs : List γ), zipW3 f as bs cs = zipW3 g as bs cs
  | a :: as, b :: bs, c :: cs => by
      simp only [zipW3]
      rw [h a b c, zipW3_congr f g h as bs cs]
  | [], _, _ => rfl
  | _ :: _, [], _ => rfl
  | _ :: _, _ :: _, [] => rfl

/-! ## Claim theorems about the loss assembly -/

/-- C2 (the code as it stands): on an input in which no image contributes
a foreground instance, `mask_rcnn_loss` does not reach its zero-return at
line 233; `torch.stack(boundary_penalty)` at line 216 is applied to an
empty list first and raises, so the call reports an error (`none`) instead
of the documented differentiable zero. -/
theorem mask_rcnn_loss_empty_batch (E : Externals P S) (v : Fin 3 → ℝ)
    (logits : List (Fin C → GridR S)) (batch : List (ImageData C P))
    (h : ∀ img ∈ batch, img.n = 0) :
    mask_rcnn_loss E v logits batch = none := by
  have hb : bandRows E batch = [] := by
    unfold bandRows
    exact flatMap_ofFn_nil batch _ h
  unfold mask_rcnn_loss
  rw [hb]
  rfl

/-- C2 witness: a one-image batch whose instance list is empty. -/
theorem mask_rcnn_loss_empty_batch_witness :
    mask_rcnn_loss egE vZero ([] : List (Fin 1 → GridR 1)) [imgEmpty] = none :=
  mask_rcnn_loss_empty_batch egE vZero [] [imgEmpty]
    (fun img hi => by rw [List.mem_singleton] at hi; rw [hi]; rfl)

/-- C1: for every batch with at least one foreground instance, with logits
rows in 1:1 correspondence with the instances, the returned training loss
is the mean over all elements of
`exp(-v0)*L0 + v0 + exp(-v1)*L1 + v1 + exp(-v2)*L2 + v2`, where `L0`,
`L1`, `L2` are the elementwise boundary-, duplicate-box- and
overlap-weighted binary-cross-entropy terms over the same selected logits
and the same float targets. -/
theorem mask_rcnn_loss_formula (E : Externals P S) (v : Fin 3 → ℝ)
    (logits : List (Fin C → GridR S)) (batch : List (ImageData C P))
    (hN : 0 < totalN batch) (hB : logits.length = totalN batch) :
    mask_rcnn_loss E v logits batch =
      some (tensorMean (zipW3
        (fun l0 l1 l2 a b =>
          Real.exp (-(v 0)) * l0 a b + v 0 + Real.exp (-(v 1)) * l1 a b + v 1 +
            Real.exp (-(v 2)) * l2 a b + v 2)
        (weightedBCERows (boundaryWeightRows E batch)
          (selValue logits (classRows batch)) (targetRows E batch))
        (weightedBCERows (roiWeightRows batch)
          (selValue logits (classRows batch)) (targetRows E batch))
        (weightedBCERows (overlapWeightRows E batch)
          (selValue logits (classRows batch)) (targetRows E batch)))) := by
  have hband : bandRows E batch ≠ [] := fun hnil =>
    absurd hN (by rw [← bandRows_length E batch, hnil]; simp)
  have hcontrib : contribImgs batch ≠ [] := contribImgs_ne_nil batch hN
  have hclass : (classRows batch).length = totalN batch := classRows_length batch
  have hsel : select_logits logits (classRows batch) =
      some (selValue logits (classRows batch)) :=
    select_logits_eq logits (classRows batch) (by rw [hB, hclass])
  have hlen2 : (selValue logits (classRows batch)).length = (targetRows E batch).length := by
    rw [selValue_length logits (classRows batch) (by rw [hB, hclass]), hB,
      targetRows_length E batch]
  unfold mask_rcnn_loss
  rw [stackG_some _ hband, stackG_some _ hcontrib]
  simp only [Option.some_bind]
  rw [if_neg (by simpa [List.isEmpty_iff] using hcontrib), hsel]
  simp only [Option.some_bind]
  rw [if_pos hlen2]
  exact congrArg (fun t => some (tensorMean t))
    (zipW3_congr _ _ (fun l0 l1 l2 => funext fun a => funext fun b => by ring) _ _ _)

/-- C1 witness: a one-image, one-instance batch on a 1x1 grid, all-zero
logits and log-variances; the loss is returned without error. -/
theorem mask_rcnn_loss_formula_witness :
    (mask_rcnn_loss egE vZero [rowZero] [img1]).isSome = true := by
  rw [mask_rcnn_loss_formula egE vZero [rowZero] [img1] (by simp [totalN, img1])
    (by simp [totalN, img1])]
  rfl

/-! ## Lemmas for the inference pipeline -/

theorem totalInfN_cons {α : Type} (im : InfInstances C α) (rest : List (InfInstances C α)) :
    totalInfN (im :: rest) = im.n + totalInfN rest := by
  simp [totalInfN]

theorem flatClasses_cons {α : Type} (im : InfInstances C α) (rest : List (InfInstances C α)) :
    flatClasses (im :: rest) = List.ofFn im.predClass ++ flatClasses rest := by
  simp [flatClasses]

theorem flatClasses_length {α : Type} :
    ∀ insts : List (InfInstances C α), (flatClasses insts).length = totalInfN insts
  | [] => rfl
  | im :: rest => by
      rw [flatClasses_cons, List.length_append, List.length_ofFn,
        flatClasses_length rest, totalInfN_cons]

theorem inference_expected_fst {α : Type} :
    ∀ (ls : List (Fin C → GridR S)) (insts : List (InfInstances C α)),
      (inference_expected ls insts).map Prod.fst = insts
  | _, [] => rfl
  | ls, im :: rest => by
      simp only [inference_expected, List.map_cons]
      rw [inference_expected_fst (ls.drop im.n) rest]

theorem split_zip_eq {α : Type} :
    ∀ (insts : List (InfInstances C α)) (Pr : List (GridR S)),
      Pr.length = totalInfN insts →
      ((splitByCounts Pr (insts.map fun im => im.n)).bind fun chunks =>
          some (List.zipWith (fun im ms => (im, ms)) insts chunks)) =
        some (attachChunks Pr insts)
  | [], Pr, hP => by
      have hP0 : Pr = [] := List.eq_nil_of_length_eq_zero (by rw [hP]; rfl)
      subst hP0
      rfl
  | im :: rest, Pr, hP => by
      have hle : im.n ≤ Pr.length := by rw [hP, totalInfN_cons]; omega
      have hdrop : (Pr.drop im.n).length = totalInfN rest := by
        rw [List.length_drop, hP, totalInfN_cons]; omega
      have ih := split_zip_eq rest (Pr.drop im.n) hdrop
      simp only [List.map_cons, splitByCounts]
      rw [if_pos hle]
      rcases hsb : splitByCounts (Pr.drop im.n) (rest.map fun im => im.n) with _ | chunks
      · rw [hsb] at ih
        exact Option.noConfusion ih
      · rw [hsb] at ih ⊢
        simp only [Option.some_bind] at ih
        simp only [Option.map_some', Option.some_bind]
        rw [List.zipWith_cons_cons]
        simp only [attachChunks]
        exact congrArg some (congrArg (List.cons (im, Pr.take im.n)) (Option.some.inj ih))

theorem map_take_ofFn {β : Type} (l : List (Fin C → GridR S)) (n : ℕ) (hn : n ≤ l.length)
    (f : (Fin C → GridR S) → β) :
    (l.take n).map f = List.ofFn fun i : Fin n => f (l.getD i.val fun _ _ _ => 0) := by
  apply List.ext_getElem
  · simp [List.length_take, Nat.min_eq_left hn]
  · intro i h1 h2
    have hin : i < n := by simpa using h2
    have hi : i < l.length := lt_of_lt_of_le hin hn
    simp only [List.getElem_map, List.getElem_take, List.getElem_ofFn]
    rw [List.getD_eq_getElem l _ hi]

theorem zipWith_take_ofFn (l : List (Fin C → GridR S)) (n : ℕ) (hn : n ≤ l.length)
    (pc : Fin n → Fin C) :
    List.zipWith sigGather (l.take n) (List.ofFn pc) =
      List.ofFn fun i : Fin n => sigGather (l.getD i.val fun _ _ _ => 0) (pc i) := by
  apply List.ext_getElem
  · simp only [List.length_zipWith, List.length_take, List.length_ofFn]
    omega
  · intro i h1 h2
    have hin : i < n := by simpa using h2
    have hi : i < l.length := lt_of_lt_of_le hin hn
    simp only [List.getElem_zipWith, List.getElem_take, List.getElem_ofFn]
    rw [List.getD_eq_getElem l _ hi]

theorem attach_agnostic {α : Type} (hC : C = 1) :
    ∀ (logits : List (Fin C → GridR S)) (insts : List (InfInstances C α)),
      logits.length = totalInfN insts →
      attachChunks (logits.map (sigAg hC)) insts = inference_expected logits insts
  | _, [], _ => rfl
  | logits, im :: rest, hlen => by
      have hle : im.n ≤ logits.length := by rw [hlen, totalInfN_cons]; omega
      have htail : attachChunks ((logits.map (sigAg hC)).drop im.n) rest =
          inference_expected (logits.drop im.n) rest := by
        rw [← List.map_drop]
        exact attach_agnostic hC (logits.drop im.n) rest
          (by rw [List.length_drop, hlen, totalInfN_cons]; omega)
      have hhead : (logits.map (sigAg hC)).take im.n =
          List.ofFn (fun i : Fin im.n => fun a b =>
            sigmoid ((logits.getD i.val fun _ _ _ => 0) (chanSel im i) a b)) := by
        rw [← List.map_take, map_take_ofFn logits im.n hle (sigAg hC)]
        have hfun : (fun i : Fin im.n => sigAg hC (logits.getD i.val fun _ _ _ => 0)) =
            fun i : Fin im.n => fun a b =>
              sigmoid ((logits.getD i.val fun _ _ _ => 0) (chanSel im i) a b) := by
          funext i a b
          simp only [sigAg, chanSel]
          rw [dif_pos hC]
        rw [hfun]
      simp only [attachChunks, inference_expected]
      rw [htail, hhead]

theorem attach_specific {α : Type} (hC : ¬ C = 1) :
    ∀ (logits : List (Fin C → GridR S)) (insts : List (InfInstances C α)),
      logits.length = totalInfN insts →
      attachChunks (List.zipWith sigGather logits (flatClasses insts)) insts =
        inference_expected logits insts
  | _, [], _ => rfl
  | logits, im :: rest, hlen => by
      have hle : im.n ≤ logits.length := by rw [hlen, totalInfN_cons]; omega
      have hlenT : (logits.take im.n).length = im.n := by
        rw [List.length_take]; exact Nat.min_eq_left hle
      have hzip : List.zipWith sigGather logits (flatClasses (im :: rest)) =
          List.zipWith sigGather (logits.take im.n) (List.ofFn im.predClass) ++
            List.zipWith sigGather (logits.drop im.n) (flatClasses rest) := by
        conv_lhs => rw [← List.take_append_drop im.n logits, flatClasses_cons]
        exact List.zipWith_append _ _ _ _ _ (by rw [hlenT, List.length_ofFn])
      have hlenz :
          (List.zipWith sigGather (logits.take im.n) (List.ofFn im.predClass)).length =
            im.n := by
        rw [List.length_zipWith, hlenT, List.length_ofFn, min_self]
      simp only [attachChunks, inference_expected]
      rw [hzip, List.take_left' hlenz, List.drop_left' hlenz,
        attach_specific hC (logits.drop im.n) rest
          (by rw [List.length_drop, hlen, totalInfN_cons]; omega),
        zipWith_take_ofFn logits im.n hle im.predClass]
      have hfun : (fun i : Fin im.n =>
          sigGather (logits.getD i.val fun _ _ _ => 0) (im.predClass i)) =
          fun i : Fin im.n => fun a b =>
            sigmoid ((logits.getD i.val fun _ _ _ => 0) (chanSel im i) a b) := by
        funext i a b
        simp only [sigGather, chanSel]
        rw [dif_neg hC]
      rw [hfun]

/-! ## Claim theorem about inference -/

/-- C9: in inference mode, for every batch of instance lists whose total
row count matches the logit rows, the head attaches to every instance the
single-channel sigmoid probability mask of its own logit row — at the
channel equal to the instance's predicted class in the class-specific
case, at the only channel otherwise — and returns every record (all
pre-existing fields, instance counts) unchanged. -/
theorem mask_rcnn_inference_spec {α : Type} (logits : List (Fin C → GridR S))
    (insts : List (InfInstances C α)) (hlen : logits.length = totalInfN insts) :
    mask_rcnn_inference logits insts = some (inference_expected logits insts) ∧
      (inference_expected logits insts).map Prod.fst = insts := by
  refine ⟨?_, inference_expected_fst logits insts⟩
  unfold mask_rcnn_inference
  by_cases hC : C = 1
  · rw [dif_pos hC]
    simp only [Option.some_bind]
    refine (split_zip_eq insts (logits.map (sigAg hC)) ?_).trans ?_
    · rw [List.length_map]; exact hlen
    · exact congrArg some (attach_agnostic hC logits insts hlen)
  · rw [dif_neg hC, if_pos (by rw [flatClasses_length]; exact hlen)]
    simp only [Option.some_bind]
    refine (split_zip_eq insts (List.zipWith sigGather logits (flatClasses insts)) ?_).trans ?_
    · rw [List.length_zipWith, flatClasses_length, hlen, min_self]
    · exact congrArg some (attach_specific hC logits insts hlen)

/-- C9 witness: a one-image, one-instance batch with two classes; the head
returns the record unchanged with its gathered sigmoid mask attached. -/
theorem mask_rcnn_inference_spec_witness :
    mask_rcnn_inference [rowZero2] [inf1] = some (inference_expected [rowZero2] [inf1]) ∧
      (inference_expected [rowZero2] [inf1]).map Prod.fst = [inf1] :=
  mask_rcnn_inference_spec [rowZero2] [inf1] (by simp [totalInfN, inf1])
